import Mathlib

set_option autoImplicit false

/-
Verification of the git-branchless test engine specification and of the
scm-record change-selector data model.

Part 1 (`ScmRecord`) is a direct shallow embedding of
`scm-record/src/types.rs`: the `File`/`Section`/`SelectedContents` data
model and the `File::get_file_mode` / `File::get_selected_contents`
functions.

Part 2 (`BranchlessTest`) models the test execution and caching engine of
`git-branchless-test`.  The engine's implementation is not part of this
source tree (only its integration tests are), so the definitions are
modelled from the specification, with output formats taken from the
snapshot transcripts in `git-branchless-test/tests/test_test.rs`.
-/

namespace ScmRecord

/-- The Unix file mode (`FileMode` in types.rs). The special mode `0`
indicates that the file did not exist. -/
structure FileMode where
  mode : Nat
deriving DecidableEq, Repr

/-- `FileMode::absent`: the file mode corresponding to an absent file. -/
def FileMode.absent : FileMode := ⟨0⟩

/-- The type of change in the patch/diff (`ChangeType` in types.rs). -/
inductive ChangeType where
  | Added
  | Removed
deriving DecidableEq, Repr

/-- A changed line inside a `Section` (`SectionChangedLine` in types.rs). -/
structure SectionChangedLine where
  is_toggled : Bool
  change_type : ChangeType
  line : String
deriving DecidableEq, Repr

/-- A section of a file to be rendered and recorded (`Section` in types.rs). -/
inductive Section where
  | Unchanged (lines : List String)
  | Changed (lines : List SectionChangedLine)
  | FileMode (is_toggled : Bool) (before : FileMode) (after : FileMode)
  | Binary (is_toggled : Bool) (old_description : Option String)
      (new_description : Option String)
deriving DecidableEq, Repr

/-- The state of a file to be recorded (`File` in types.rs). -/
structure File where
  path : String
  file_mode : Option FileMode
  sections : List Section
deriving DecidableEq, Repr

/-- The contents of a file selected as part of the record operation
(`SelectedContents` in types.rs). -/
inductive SelectedContents where
  | Absent
  | Unchanged
  | Binary (old_description : Option String) (new_description : Option String)
  | Present (contents : String)
deriving DecidableEq, Repr

/-- `SelectedContents::push_str` from types.rs: appending text to `Absent` or
`Unchanged` produces `Present` with just that text; `Binary` ignores the
text; `Present` appends. -/
def SelectedContents.push_str : SelectedContents → String → SelectedContents
  | .Absent, s => .Present s
  | .Unchanged, s => .Present s
  | .Binary o n, _ => .Binary o n
  | .Present c, s => .Present (c ++ s)

/-- The per-section selector used by `File::get_file_mode` (the closure
passed to `find_map`): a toggled `FileMode` section yields its `after`
mode; every other section yields nothing. -/
def fileModeSelector : Section → Option FileMode
  | .Unchanged _ => none
  | .Changed _ => none
  | .FileMode false _ _ => none
  | .FileMode true _ after => some after
  | .Binary _ _ _ => none

/-- `File::get_file_mode` from types.rs: scan the sections with
`fileModeSelector`, and fall back to the `file_mode` field. -/
def File.get_file_mode (f : File) : Option FileMode :=
  (f.sections.findSome? fileModeSelector).or f.file_mode

/-- One step of the fold in `File::get_selected_contents`: process one
section, updating the `(selected, unselected)` accumulator pair exactly as
the `for` loop in types.rs does. -/
def processSection (acc : SelectedContents × SelectedContents) (s : Section) :
    SelectedContents × SelectedContents :=
  match s with
  | .Unchanged lines =>
      lines.foldl
        (fun p line => (p.1.push_str line, p.2.push_str line)) acc
  | .Changed lines =>
      lines.foldl
        (fun p l =>
          match l.change_type, l.is_toggled with
          | .Added, true => (p.1.push_str l.line, p.2)
          | .Removed, false => (p.1.push_str l.line, p.2)
          | .Added, false => (p.1, p.2.push_str l.line)
          | .Removed, true => (p.1, p.2.push_str l.line))
        acc
  | .FileMode tog bef aft =>
      if tog && aft == FileMode.absent then (.Absent, acc.2)
      else if !tog && bef == FileMode.absent then (acc.1, .Absent)
      else acc
  | .Binary tog o n =>
      if tog then (.Binary o n, acc.2) else (acc.1, .Binary o n)

/-- `File::get_selected_contents` from types.rs: fold `processSection` over
the sections starting from `(Unchanged, Unchanged)`. -/
def File.get_selected_contents (f : File) :
    SelectedContents × SelectedContents :=
  f.sections.foldl processSection (.Unchanged, .Unchanged)

/-- Modelled from the spec (claim formalization helper): the first `FileMode`
section whose `is_toggled` flag is true, skipping untoggled `FileMode`
sections and all `Unchanged`, `Changed` and `Binary` sections. -/
def firstToggledFileMode : List Section → Option FileMode
  | [] => none
  | .FileMode true _ after :: _ => some after
  | .Unchanged _ :: rest => firstToggledFileMode rest
  | .Changed _ :: rest => firstToggledFileMode rest
  | .FileMode false _ _ :: rest => firstToggledFileMode rest
  | .Binary _ _ _ :: rest => firstToggledFileMode rest

/-- Whether a changed line is selected into the first ("selected") result:
an added line that is toggled, or a removed line that is not toggled. -/
def lineSelected (l : SectionChangedLine) : Bool :=
  match l.change_type, l.is_toggled with
  | .Added, true => true
  | .Removed, false => true
  | .Added, false => false
  | .Removed, true => false

/-- The texts a section contributes to the selected contents: all lines of
an `Unchanged` section; the selected changed lines of a `Changed` section;
nothing for `FileMode` and `Binary` sections. -/
def selectedLinesOf : Section → List String
  | .Unchanged lines => lines
  | .Changed lines => (lines.filter lineSelected).map (fun l => l.line)
  | .FileMode _ _ _ => []
  | .Binary _ _ _ => []

/-- The texts a section contributes to the unselected contents. -/
def unselectedLinesOf : Section → List String
  | .Unchanged lines => lines
  | .Changed lines => (lines.filter (fun l => !lineSelected l)).map (fun l => l.line)
  | .FileMode _ _ _ => []
  | .Binary _ _ _ => []

/-- Push a list of line texts onto an accumulator, one `push_str` at a time. -/
def pushAll (acc : SelectedContents) (xs : List String) : SelectedContents :=
  xs.foldl SelectedContents.push_str acc

/-- A section that neither discards nor replaces the accumulated contents:
`Unchanged` and `Changed` sections always qualify; a `FileMode` section
qualifies unless it is toggled with an absent `after` mode or untoggled
with an absent `before` mode; a `Binary` section never qualifies. -/
def sectionKeepsContents : Section → Bool
  | .Unchanged _ => true
  | .Changed _ => true
  | .FileMode tog bef aft =>
      !(tog && aft == FileMode.absent) && !(!tog && bef == FileMode.absent)
  | .Binary _ _ _ => false

/-- A concrete file used to exercise the selected-contents partition: one
context section and one changed section holding all four kinds of changed
lines. -/
def partitionSampleFile : File :=
  { path := "sample.txt"
    file_mode := some ⟨0o100644⟩
    sections :=
      [ .Unchanged ["context line\n"]
      , .Changed
          [ ⟨true, .Added, "added toggled\n"⟩
          , ⟨false, .Added, "added untoggled\n"⟩
          , ⟨true, .Removed, "removed toggled\n"⟩
          , ⟨false, .Removed, "removed untoggled\n"⟩ ] ] }

/-- A concrete file where an accepted file-deletion `FileMode` section
follows a toggled added line: processing the `FileMode` section overwrites
the selected contents with `Absent`, discarding the added line's text. -/
def deletionAfterChangeFile : File :=
  { path := "deleted.txt"
    file_mode := some ⟨0o100644⟩
    sections :=
      [ .Changed [⟨true, .Added, "new line\n"⟩]
      , .FileMode true ⟨0o100644⟩ ⟨0⟩ ] }

end ScmRecord

namespace BranchlessTest

/-- Modelled from the spec (§3 CommitRef; the implementation of
git-branchless-test is not in this source tree): an opaque commit
identifier, its tree content identifier, and the short description used by
the reporter. -/
structure CommitRef where
  id : Nat
  tree : Nat
  descr : String
deriving DecidableEq, Repr

/-- Modelled from the spec (§3 TestRequest): command string, strategy, job
count and verbosity level. -/
inductive Strategy where
  | WorkingCopy
  | Worktree
deriving DecidableEq, Repr

/-- Modelled from the spec (§3 TestRequest). -/
structure TestRequest where
  command : String
  strategy : Strategy
  job_count : Nat
  verbosity : Nat
deriving DecidableEq, Repr

/-- Modelled from the spec (§3 CacheEntry): exit code, captured stdout and
stderr (as lines), and the "fixed" flag. -/
structure CacheEntry where
  exit_code : Nat
  stdout_lines : List String
  stderr_lines : List String
  fixed : Bool
deriving DecidableEq, Repr

/-- One record of the content-addressed cache: a (tree content identifier,
command) key with its stored entry. -/
structure CacheRecord where
  tree : Nat
  command : String
  entry : CacheEntry
deriving DecidableEq, Repr

/-- Modelled from the spec (§4.1 Cache Store): the persistent cache as a
list of keyed records. -/
abbrev Cache := List CacheRecord

/-- Modelled from the spec (§4.1 `lookup`): the entry stored under a
(tree, command) key, if any. -/
def lookupEntry : Cache → Nat → String → Option CacheEntry
  | [], _, _ => none
  | r :: rest, t, cmd =>
      if r.tree = t ∧ r.command = cmd then some r.entry
      else lookupEntry rest t cmd

/-- Remove every record stored under a given (tree, command) key. -/
def removeKey : Cache → Nat → String → Cache
  | [], _, _ => []
  | r :: rest, t, cmd =>
      if r.tree = t ∧ r.command = cmd then removeKey rest t cmd
      else r :: removeKey rest t cmd

/-- Modelled from the spec (§4.1 `store`): storing under a key overwrites
any previous entry for that key. -/
def storeEntry (cache : Cache) (t : Nat) (cmd : String) (e : CacheEntry) :
    Cache :=
  ⟨t, cmd, e⟩ :: removeKey cache t cmd

/-- Modelled from the spec (§3 TestOutcome). -/
inductive TestOutcome where
  | Passed
  | PassedCached
  | Failed (code : Nat)
  | FailedCached
  | Skipped
deriving DecidableEq, Repr

/-- Modelled from the spec (§3 RunSummary). -/
structure RunSummary where
  passed : Nat
  failed : Nat
  skipped : Nat
deriving DecidableEq, Repr

/-- The outcome reported for a cache hit: a cached pass or a cached
failure, according to the stored exit code. -/
def cachedOutcome (e : CacheEntry) : TestOutcome :=
  if e.exit_code = 0 then .PassedCached else .FailedCached

/-- The outcome recorded for a fresh run: exit code 0 is a pass, anything
else a failure carrying the exit code (spec §4.5). -/
def freshOutcome (e : CacheEntry) : TestOutcome :=
  if e.exit_code = 0 then .Passed else .Failed e.exit_code

/-- Whether an outcome was served from the cache. -/
def TestOutcome.isCached : TestOutcome → Bool
  | .PassedCached => true
  | .FailedCached => true
  | .Passed => false
  | .Failed _ => false
  | .Skipped => false

/-- Whether an outcome counts as passed in the summary. -/
def TestOutcome.isPassed : TestOutcome → Bool
  | .Passed => true
  | .PassedCached => true
  | .Failed _ => false
  | .FailedCached => false
  | .Skipped => false

/-- Whether an outcome counts as failed in the summary. -/
def TestOutcome.isFailed : TestOutcome → Bool
  | .Failed _ => true
  | .FailedCached => true
  | .Passed => false
  | .PassedCached => false
  | .Skipped => false

/-- Whether an outcome counts as skipped in the summary. -/
def TestOutcome.isSkipped : TestOutcome → Bool
  | .Skipped => true
  | .Passed => false
  | .PassedCached => false
  | .Failed _ => false
  | .FailedCached => false

/-- Modelled from the spec (§4.6 Result Reporter) and the transcripts in
tests/test_test.rs: the per-commit status text, with the cache annotation. -/
def describeOutcome : TestOutcome → String
  | .Passed => "✓ Passed"
  | .PassedCached => "✓ Passed (cached)"
  | .Failed code => "X Failed (exit code " ++ toString code ++ ")"
  | .FailedCached => "X Failed (cached)"
  | .Skipped => "⚠ Skipped"

/-- Modelled from the spec (§3 RunSummary): count the outcomes. -/
def summarize (outs : List TestOutcome) : RunSummary :=
  { passed := outs.countP (fun o => o.isPassed)
    failed := outs.countP (fun o => o.isFailed)
    skipped := outs.countP (fun o => o.isSkipped) }

/-- Modelled from the spec (§4.6) and the snapshot transcripts in
tests/test_test.rs (which render the summary as two lines, the counts on
the line after the colon): the final summary text. -/
def summaryLine (k : Nat) (cmd : String) (s : RunSummary) : String :=
  "Tested " ++ toString k ++ " commit" ++ (if k = 1 then "" else "s") ++
    " with " ++ cmd ++ ":\n" ++
    toString s.passed ++ " passed, " ++ toString s.failed ++ " failed, " ++
    toString s.skipped ++ " skipped"

/-- Modelled from the spec (§4.5 Test Scheduler; the scheduler
implementation is not in this source tree).  For each commit in stack
order: on a cache hit record the cached outcome without executing; on a
miss execute the command against the commit's tree (`exec` models the
Command Runner for the fixed command under test), classify the exit code,
and store the new entry.  Returns the per-commit outcomes in stack order,
the final cache, and the list of tree identifiers actually executed
(spawned), in order. -/
def runCommits (exec : Nat → CacheEntry) (cmd : String) :
    Cache → List CommitRef →
    List (CommitRef × TestOutcome) × Cache × List Nat
  | cache, [] => ([], cache, [])
  | cache, c :: cs =>
      match lookupEntry cache c.tree cmd with
      | some e =>
          let r := runCommits exec cmd cache cs
          ((c, cachedOutcome e) :: r.1, r.2.1, r.2.2)
      | none =>
          let e := exec c.tree
          let r := runCommits exec cmd (storeEntry cache c.tree cmd e) cs
          ((c, freshOutcome e) :: r.1, r.2.1, c.tree :: r.2.2)

/-- Modelled from the spec (§5, §7) and tests/test_test.rs
(test_test_jobs_argument_handling): a job count other than the trivial
value 1 is only compatible with the Worktree strategy; the validation
error text is the one shown in the test transcript. -/
def jobsErrorMessage : String :=
  "The --jobs argument can only be used with --strategy worktree,\n" ++
    "but --strategy working-copy was provided instead."

/-- Modelled from the spec (§5): precondition validation of a TestRequest.
Returns the error message for an incompatible job count / strategy
combination, and nothing when the request is acceptable. -/
def validateRequest (req : TestRequest) : Option String :=
  match req.strategy with
  | .Worktree => none
  | .WorkingCopy =>
      if req.job_count = 1 then none else some jobsErrorMessage

/-- Modelled from the spec (§4.3) and tests/test_test.rs (test_test_abort):
the error text reported when a prior rebase session is still in progress. -/
def rebaseInProgressMessage : String :=
  "A rebase operation is already in progress.\n" ++
    "Run git rebase --continue or git rebase --abort to resolve it and proceed."

/-- Modelled from the spec (§4.3, §7): the repository state visible to a
test invocation; a prior Working-Copy-strategy session that was interrupted
leaves `rebase_in_progress` set. -/
structure RepoState where
  rebase_in_progress : Bool
deriving DecidableEq, Repr

/-- Modelled from the spec (§4.3, §4.5, §7): the entry point of one test
invocation.  Request validation happens first; then, for the Working-Copy
strategy, an in-progress rebase session causes the invocation to refuse
before any test executes; otherwise the scheduler runs. -/
def startTestRun (st : RepoState) (exec : Nat → CacheEntry)
    (req : TestRequest) (cache : Cache) (commits : List CommitRef) :
    Except String (List (CommitRef × TestOutcome) × Cache × List Nat) :=
  match validateRequest req with
  | some e => .error e
  | none =>
      match req.strategy with
      | .WorkingCopy =>
          if st.rebase_in_progress then .error rebaseInProgressMessage
          else .ok (runCommits exec req.command cache commits)
      | .Worktree => .ok (runCommits exec req.command cache commits)

/-- Remove every record whose tree identifier occurs in the given list. -/
def removeTrees (trees : List Nat) : Cache → Cache
  | [] => []
  | r :: rest =>
      if r.tree ∈ trees then removeTrees trees rest
      else r :: removeTrees trees rest

/-- Whether the cache holds any entry for a given tree identifier. -/
def treeHasEntry (cache : Cache) (t : Nat) : Bool :=
  cache.any (fun r => r.tree = t)

/-- Modelled from the spec (§4.1 `clean`) and tests/test_test.rs
(test_test_show): remove the entries for the supplied commits' current tree
content identifiers; report "Cleaning results" per commit that had an
entry and "No cached test data" per commit that did not, plus the number
of entries that existed before removal.  Returns the remaining cache, the
per-commit messages followed by the final count line, and the count. -/
def cleanCache (cache : Cache) (commits : List CommitRef) :
    Cache × List String × Nat :=
  let trees := commits.map (fun c => c.tree)
  let removedCount := (cache.filter (fun r => r.tree ∈ trees)).length
  let msgs := commits.map (fun c =>
    if treeHasEntry cache c.tree then "Cleaning results for " ++ c.descr
    else "No cached test data for " ++ c.descr)
  (removeTrees trees cache,
    msgs ++ ["Cleaned " ++ toString removedCount ++ " cached test results."],
    removedCount)

/-- Modelled from the spec (§4.1 `has_entry` / the `show` subcommand) and
tests/test_test.rs (test_test_show): the per-commit line printed by
`show` — the cached outcome when an entry exists, else "No cached test
data". -/
def showLine (cache : Cache) (cmd : String) (c : CommitRef) : String :=
  match lookupEntry cache c.tree cmd with
  | some e => describeOutcome (cachedOutcome e) ++ ": " ++ c.descr
  | none => "No cached test data for " ++ c.descr

/-- Modelled from the spec (§4.6) and tests/test_test.rs
(test_test_verbosity): at verbosity level 2 captured output is shown in
full; at level 1 output of more than 10 lines is elided in the middle,
keeping the first five and last five lines around a "<N more lines>"
marker. -/
def elideLines (verbosity : Nat) (lines : List String) : List String :=
  if 2 ≤ verbosity then lines
  else if lines.length ≤ 10 then lines
  else
    lines.take 5 ++
      ("<" ++ toString (lines.length - 10) ++ " more lines>") ::
        lines.drop (lines.length - 5)

/-- Modelled from the spec (§4.7 Fix-and-Rewrite Engine): the result of one
fix-mode batch.  `rewritten` is the RewriteMapping, `newCommits` the
resulting stack, `head` the tip checked out at the end. -/
structure FixResult where
  outcomes : List (CommitRef × TestOutcome)
  rewritten : List (CommitRef × CommitRef)
  newCommits : List CommitRef
  head : Option Nat
  message : String
  exit_code : Nat
deriving DecidableEq, Repr

/-- Modelled from the spec (§4.7; the engine implementation is not in this
source tree).  `exec` models running the command against a tree (fix mode
always re-executes, ignoring the cache); `fixTree` models the tree content
after the command's working-copy mutations are baked in; `newId` models
allocation of the rewritten commit identifiers.  If any commit fails, no
commit is rewritten, the original commits remain, and the batch exits
non-zero reporting only the test results.  If all pass and every diff is
empty, nothing is amended and "No commits to fix." is reported.  Otherwise
a single in-memory rebase replays the stack with the amendments folded in
and checks out the new tip. -/
def runFix (exec : Nat → CacheEntry) (fixTree : Nat → Nat)
    (newId : Nat → Nat) (commits : List CommitRef) : FixResult :=
  let outcomes := commits.map (fun c => (c, freshOutcome (exec c.tree)))
  if commits.all (fun c => (exec c.tree).exit_code = 0) then
    if commits.all (fun c => fixTree c.tree = c.tree) then
      { outcomes := outcomes
        rewritten := []
        newCommits := commits
        head := (commits.getLast?).map (fun c => c.id)
        message := "No commits to fix."
        exit_code := 0 }
    else
      let newCommits := commits.map (fun c =>
        { id := newId c.id, tree := fixTree c.tree, descr := c.descr : CommitRef })
      { outcomes := outcomes
        rewritten := commits.zip newCommits
        newCommits := newCommits
        head := (newCommits.getLast?).map (fun c => c.id)
        message := "In-memory rebase succeeded."
        exit_code := 0 }
  else
    { outcomes := outcomes
      rewritten := []
      newCommits := commits
      head := (commits.getLast?).map (fun c => c.id)
      message := ""
      exit_code := 1 }

end BranchlessTest

namespace BranchlessTest

/-- A command runner that always exits 0. -/
def passExec : Nat → CacheEntry := fun _ => ⟨0, ["ok"], [], false⟩

/-- A command runner that always exits 1. -/
def failExec : Nat → CacheEntry := fun _ => ⟨1, [], ["boom"], false⟩

/-- A command runner that fails exactly on tree 20. -/
def failOn20Exec : Nat → CacheEntry := fun t =>
  if t = 20 then ⟨1, ["Failed on test2.txt"], [], false⟩ else ⟨0, [], [], false⟩

/-- Sample commit: the first of a small stack. -/
def commitA : CommitRef := ⟨1, 10, "fe65c1f create test2.txt"⟩

/-- Sample commit: the second of a small stack. -/
def commitB : CommitRef := ⟨2, 20, "0206717 create test3.txt"⟩

/-- Sample commit: a revert whose tree content is identical to `commitA`. -/
def commitRevert : CommitRef := ⟨3, 10, "1b0d484 Revert create test3.txt"⟩

/-- A request using the Working-Copy strategy with two jobs. -/
def workingCopyJobs2 : TestRequest := ⟨"exit 0", .WorkingCopy, 2, 0⟩

/-- A request using the Working-Copy strategy with one job. -/
def workingCopyJobs1 : TestRequest := ⟨"exit 0", .WorkingCopy, 1, 0⟩

/-- Three lines of captured output (below the elision threshold). -/
def threeLines : List String := ["This is line 1", "This is line 2", "This is line 3"]

/-- Fifteen lines of captured output (above the elision threshold). -/
def fifteenLines : List String :=
  ["This is line 1", "This is line 2", "This is line 3", "This is line 4",
   "This is line 5", "This is line 6", "This is line 7", "This is line 8",
   "This is line 9", "This is line 10", "This is line 11", "This is line 12",
   "This is line 13", "This is line 14", "This is line 15"]

/-- An idempotent tree fixup: trees below 100 are moved above 100. -/
def normalizeTree : Nat → Nat := fun t => if t < 100 then t + 100 else t

/-- Fresh commit identifier allocation for rewrites. -/
def shiftId : Nat → Nat := fun i => i + 1000

/-- A sample cache with entries for trees 10, 20 and 30 under "echo hi". -/
def sampleCache : Cache :=
  [⟨10, "echo hi", ⟨0, ["hi"], [], false⟩⟩,
   ⟨20, "echo hi", ⟨0, ["hi"], [], false⟩⟩,
   ⟨30, "echo hi", ⟨0, ["hi"], [], false⟩⟩]

end BranchlessTest

namespace ScmRecord

theorem findSome?_fileModeSelector (secs : List Section) :
    secs.findSome? fileModeSelector = firstToggledFileMode secs := by
  induction secs with
  | nil => rfl
  | cons s rest ih =>
    cases s with
    | Unchanged lines => simpa [List.findSome?_cons, fileModeSelector, firstToggledFileMode] using ih
    | Changed lines => simpa [List.findSome?_cons, fileModeSelector, firstToggledFileMode] using ih
    | FileMode tog bef aft =>
      cases tog with
      | false => simpa [List.findSome?_cons, fileModeSelector, firstToggledFileMode] using ih
      | true => simp [List.findSome?_cons, fileModeSelector, firstToggledFileMode]
    | Binary tog o n => simpa [List.findSome?_cons, fileModeSelector, firstToggledFileMode] using ih

/-- C10: `File::get_file_mode` returns the `after` mode of the first
`FileMode` section whose `is_toggled` flag is true, ignoring untoggled
`FileMode` sections and all `Unchanged`, `Changed` and `Binary` sections;
if no toggled `FileMode` section exists, it returns the `file_mode` value
the `File` was constructed with (which may be `none`). -/
theorem get_file_mode_first_toggled_section (f : File) :
    f.get_file_mode =
      match firstToggledFileMode f.sections with
      | some after => some after
      | none => f.file_mode := by
  unfold File.get_file_mode
  rw [findSome?_fileModeSelector]
  cases firstToggledFileMode f.sections <;> rfl

end ScmRecord

namespace ScmRecord

theorem foldl_push_pair (lines : List String) (a b : SelectedContents) :
    lines.foldl (fun p line => (p.1.push_str line, p.2.push_str line)) (a, b)
      = (pushAll a lines, pushAll b lines) := by
  induction lines generalizing a b with
  | nil => rfl
  | cons x xs ih => simpa [pushAll] using ih (a.push_str x) (b.push_str x)

theorem foldl_changed (ls : List SectionChangedLine) (a b : SelectedContents) :
    ls.foldl
        (fun p l =>
          match l.change_type, l.is_toggled with
          | .Added, true => (p.1.push_str l.line, p.2)
          | .Removed, false => (p.1.push_str l.line, p.2)
          | .Added, false => (p.1, p.2.push_str l.line)
          | .Removed, true => (p.1, p.2.push_str l.line))
        (a, b)
      = (pushAll a ((ls.filter lineSelected).map (fun l => l.line)),
         pushAll b ((ls.filter (fun l => !lineSelected l)).map (fun l => l.line))) := by
  induction ls generalizing a b with
  | nil => rfl
  | cons l ls ih =>
    obtain ⟨tog, ct, text⟩ := l
    cases ct with
    | Added =>
      cases tog with
      | true => simpa [lineSelected, pushAll] using ih (a.push_str text) b
      | false => simpa [lineSelected, pushAll] using ih a (b.push_str text)
    | Removed =>
      cases tog with
      | true => simpa [lineSelected, pushAll] using ih a (b.push_str text)
      | false => simpa [lineSelected, pushAll] using ih (a.push_str text) b

theorem foldl_processSection (secs : List Section)
    (h : ∀ s ∈ secs, sectionKeepsContents s = true) (a b : SelectedContents) :
    secs.foldl processSection (a, b)
      = (pushAll a ((secs.map selectedLinesOf).flatten),
         pushAll b ((secs.map unselectedLinesOf).flatten)) := by
  induction secs generalizing a b with
  | nil => rfl
  | cons s rest ih =>
    have hs : sectionKeepsContents s = true := h s (by simp)
    have hrest : ∀ x ∈ rest, sectionKeepsContents x = true := by
      intro x hx
      exact h x (by simp [hx])
    cases s with
    | Unchanged lines =>
      rw [List.foldl_cons]
      show List.foldl processSection (processSection (a, b) (.Unchanged lines)) rest = _
      rw [show processSection (a, b) (.Unchanged lines)
            = (pushAll a lines, pushAll b lines) from foldl_push_pair lines a b]
      rw [ih hrest]
      simp [selectedLinesOf, unselectedLinesOf, pushAll]
    | Changed lines =>
      rw [List.foldl_cons]
      show List.foldl processSection (processSection (a, b) (.Changed lines)) rest = _
      rw [show processSection (a, b) (.Changed lines)
            = (pushAll a ((lines.filter lineSelected).map (fun l => l.line)),
               pushAll b ((lines.filter (fun l => !lineSelected l)).map (fun l => l.line)))
          from foldl_changed lines a b]
      rw [ih hrest]
      simp [selectedLinesOf, unselectedLinesOf, pushAll]
    | FileMode tog bef aft =>
      have hs' : (tog && aft == FileMode.absent) = false
          ∧ (!tog && bef == FileMode.absent) = false := by
        have h' := hs
        simp only [sectionKeepsContents, Bool.and_eq_true, Bool.not_eq_true'] at h'
        exact h'
      obtain ⟨h1, h2⟩ := hs'
      rw [List.foldl_cons]
      show List.foldl processSection (processSection (a, b) (.FileMode tog bef aft)) rest = _
      rw [show processSection (a, b) (.FileMode tog bef aft) = (a, b) by
            simp [processSection, h1, h2]]
      rw [ih hrest]
      simp [selectedLinesOf, unselectedLinesOf]
    | Binary tog o n =>
      simp [sectionKeepsContents] at hs

end ScmRecord

namespace ScmRecord

/-- C9 (amended): for every `File` none of whose sections discard the
accumulated contents (no `Binary` section, and no `FileMode` section that
is toggled with an absent `after` mode or untoggled with an absent
`before` mode), `get_selected_contents` partitions the changed lines
between its two results: the selected result is exactly what is obtained
by pushing, in order, the text of every line of each `Unchanged` section
together with the text of each `Changed` line that is (Added and toggled)
or (Removed and not toggled); the unselected result pushes the `Unchanged`
lines together with exactly the remaining changed lines, so each changed
line contributes to exactly one result and each unchanged line to both. -/
theorem get_selected_contents_partition (f : File)
    (h : ∀ s ∈ f.sections, sectionKeepsContents s = true) :
    f.get_selected_contents
      = (pushAll .Unchanged ((f.sections.map selectedLinesOf).flatten),
         pushAll .Unchanged ((f.sections.map unselectedLinesOf).flatten)) :=
  foldl_processSection f.sections h SelectedContents.Unchanged SelectedContents.Unchanged

/-- Witness for C9: the partition theorem applied to a concrete file
containing all four kinds of changed lines. -/
theorem get_selected_contents_partition_witness :
    (∀ s ∈ partitionSampleFile.sections, sectionKeepsContents s = true)
    ∧ partitionSampleFile.get_selected_contents
        = (pushAll .Unchanged ((partitionSampleFile.sections.map selectedLinesOf).flatten),
           pushAll .Unchanged ((partitionSampleFile.sections.map unselectedLinesOf).flatten)) :=
  ⟨by decide, get_selected_contents_partition partitionSampleFile (by decide)⟩

/-- C9 counterexample: at `deletionAfterChangeFile` the file's only changed
line is Added and toggled, yet its text is not included in the selected
contents — the selected result is `Absent`, because the later toggled
`FileMode` section with an absent `after` mode overwrites the accumulator.
So the partition property quantified over every `File` is false. -/
theorem get_selected_contents_counterexample :
    deletionAfterChangeFile.get_selected_contents
        = (SelectedContents.Absent, SelectedContents.Unchanged)
    ∧ ¬(deletionAfterChangeFile.get_selected_contents
        = (pushAll .Unchanged ((deletionAfterChangeFile.sections.map selectedLinesOf).flatten),
           pushAll .Unchanged ((deletionAfterChangeFile.sections.map unselectedLinesOf).flatten))) := by
  decide

end ScmRecord

namespace BranchlessTest

/-- C5: for every request and repository state, a job count greater than 1
combined with any strategy other than Worktree is rejected with the
precondition error before any test executes, regardless of the numeric
value; a job count of exactly 1 passes validation under either strategy. -/
theorem jobs_only_with_worktree (st : RepoState) (exec : Nat → CacheEntry)
    (req : TestRequest) (cache : Cache) (commits : List CommitRef) :
    (1 < req.job_count → req.strategy ≠ Strategy.Worktree →
      startTestRun st exec req cache commits = .error jobsErrorMessage)
    ∧ (req.job_count = 1 → validateRequest req = none) := by
  constructor
  · intro hjc hstrat
    cases hreq : req.strategy with
    | Worktree => exact absurd hreq hstrat
    | WorkingCopy =>
      have hne : ¬ req.job_count = 1 := by omega
      simp [startTestRun, validateRequest, hreq, hne]
  · intro h1
    cases hreq : req.strategy <;> simp [validateRequest, hreq, h1]

/-- Witness for C5: jobs = 2 under Working-Copy is refused with the
precondition error; jobs = 1 under Working-Copy passes validation. -/
theorem jobs_only_with_worktree_witness :
    (1 < workingCopyJobs2.job_count ∧ workingCopyJobs2.strategy ≠ Strategy.Worktree
      ∧ startTestRun ⟨false⟩ passExec workingCopyJobs2 [] [commitA] = .error jobsErrorMessage)
    ∧ (workingCopyJobs1.job_count = 1 ∧ validateRequest workingCopyJobs1 = none) :=
  ⟨⟨by decide, by decide,
    (jobs_only_with_worktree ⟨false⟩ passExec workingCopyJobs2 [] [commitA]).1
      (by decide) (by decide)⟩,
   ⟨by decide,
    (jobs_only_with_worktree ⟨false⟩ passExec workingCopyJobs1 [] [commitA]).2 (by decide)⟩⟩

/-- C7: whenever a prior Working-Copy-strategy rebase session is still in
progress, a subsequent (otherwise valid) Working-Copy test invocation
detects it and refuses to start, reporting that a rebase operation is
already in progress and executing no tests. -/
theorem rebase_session_conflict (st : RepoState) (exec : Nat → CacheEntry)
    (req : TestRequest) (cache : Cache) (commits : List CommitRef)
    (hprog : st.rebase_in_progress = true)
    (hstrat : req.strategy = Strategy.WorkingCopy)
    (hjobs : req.job_count = 1) :
    startTestRun st exec req cache commits = .error rebaseInProgressMessage := by
  simp [startTestRun, validateRequest, hstrat, hjobs, hprog]

/-- Witness for C7: with a stalled rebase session, a plain run refuses. -/
theorem rebase_session_conflict_witness :
    (⟨true⟩ : RepoState).rebase_in_progress = true
    ∧ workingCopyJobs1.strategy = Strategy.WorkingCopy
    ∧ workingCopyJobs1.job_count = 1
    ∧ startTestRun ⟨true⟩ passExec workingCopyJobs1 [] [commitA, commitB]
        = .error rebaseInProgressMessage :=
  ⟨by decide, by decide, by decide,
   rebase_session_conflict ⟨true⟩ passExec workingCopyJobs1 [] [commitA, commitB]
     (by decide) (by decide) (by decide)⟩

/-- C8: at verbosity level 1, captured output of at most 10 lines is
printed in full, while longer output is elided in the middle — the first
five and last five lines are kept around a "<N more lines>" marker; at
verbosity level 2 the output is always displayed in full with no elision. -/
theorem verbosity_elision (lines : List String) :
    elideLines 2 lines = lines
    ∧ (lines.length ≤ 10 → elideLines 1 lines = lines)
    ∧ (10 < lines.length →
        elideLines 1 lines
          = lines.take 5 ++
              ("<" ++ toString (lines.length - 10) ++ " more lines>") ::
                lines.drop (lines.length - 5)) := by
  refine ⟨by simp [elideLines], fun h => by simp [elideLines, h], fun h => ?_⟩
  have h' : ¬ lines.length ≤ 10 := by omega
  simp [elideLines, h']

/-- Witness for C8: three lines are shown in full at level 1; fifteen lines
are elided to the first five, a "<5 more lines>" marker, and the last five;
level 2 shows all fifteen lines. -/
theorem verbosity_elision_witness :
    (threeLines.length ≤ 10 ∧ elideLines 1 threeLines = threeLines)
    ∧ (10 < fifteenLines.length
        ∧ elideLines 1 fifteenLines
            = fifteenLines.take 5 ++
                ("<" ++ toString (fifteenLines.length - 10) ++ " more lines>") ::
                  fifteenLines.drop (fifteenLines.length - 5))
    ∧ elideLines 2 fifteenLines = fifteenLines :=
  ⟨⟨by decide, (verbosity_elision threeLines).2.1 (by decide)⟩,
   ⟨by decide, (verbosity_elision fifteenLines).2.2 (by decide)⟩,
   (verbosity_elision fifteenLines).1⟩

end BranchlessTest

namespace BranchlessTest

/-- C2: in fix mode, if any commit's test run exits nonzero, the engine
performs no history mutation: the rewrite mapping is empty, the commit
stack keeps its original commit identifiers unchanged, only the per-commit
test results are reported (no fix message), and the batch exits non-zero. -/
theorem fix_failure_no_rewrite (exec : Nat → CacheEntry)
    (fixTree newId : Nat → Nat) (commits : List CommitRef)
    (h : ∃ c ∈ commits, (exec c.tree).exit_code ≠ 0) :
    (runFix exec fixTree newId commits).rewritten = []
    ∧ (runFix exec fixTree newId commits).newCommits = commits
    ∧ (runFix exec fixTree newId commits).outcomes
        = commits.map (fun c => (c, freshOutcome (exec c.tree)))
    ∧ (runFix exec fixTree newId commits).message = ""
    ∧ (runFix exec fixTree newId commits).exit_code = 1 := by
  obtain ⟨c, hc, hne⟩ := h
  have hall : commits.all (fun c => (exec c.tree).exit_code = 0) = false := by
    rw [Bool.eq_false_iff]
    intro hcontra
    rw [List.all_eq_true] at hcontra
    exact hne (by simpa using hcontra c hc)
  simp [runFix, hall]

/-- Witness for C2: a three-commit stack whose middle commit fails keeps
all three original commits and produces no rewrite. -/
theorem fix_failure_no_rewrite_witness :
    (∃ c ∈ [commitA, commitB, commitRevert], (failOn20Exec c.tree).exit_code ≠ 0)
    ∧ (runFix failOn20Exec normalizeTree shiftId [commitA, commitB, commitRevert]).rewritten = []
    ∧ (runFix failOn20Exec normalizeTree shiftId [commitA, commitB, commitRevert]).newCommits
        = [commitA, commitB, commitRevert]
    ∧ (runFix failOn20Exec normalizeTree shiftId [commitA, commitB, commitRevert]).exit_code = 1 := by
  have h := fix_failure_no_rewrite failOn20Exec normalizeTree shiftId
    [commitA, commitB, commitRevert] (by decide)
  exact ⟨by decide, h.1, h.2.1, h.2.2.2.2⟩

/-- C3: fix mode is idempotent.  If the command always succeeds and its
tree fixup is idempotent, then after one fix-mode run a second fix-mode
run over the resulting stack rewrites zero commits, reports "No commits to
fix.", and leaves the commit stack (hence every commit's file contents)
and the checked-out HEAD exactly as the first run left them. -/
theorem fix_idempotent (exec : Nat → CacheEntry) (fixTree newId : Nat → Nat)
    (commits : List CommitRef)
    (hpass : ∀ t, (exec t).exit_code = 0)
    (hidem : ∀ t, fixTree (fixTree t) = fixTree t) :
    (runFix exec fixTree newId (runFix exec fixTree newId commits).newCommits).rewritten = []
    ∧ (runFix exec fixTree newId (runFix exec fixTree newId commits).newCommits).message
        = "No commits to fix."
    ∧ (runFix exec fixTree newId (runFix exec fixTree newId commits).newCommits).newCommits
        = (runFix exec fixTree newId commits).newCommits
    ∧ (runFix exec fixTree newId (runFix exec fixTree newId commits).newCommits).head
        = (runFix exec fixTree newId commits).head
    ∧ (runFix exec fixTree newId (runFix exec fixTree newId commits).newCommits).exit_code = 0 := by
  have hall : ∀ (l : List CommitRef),
      l.all (fun c => (exec c.tree).exit_code = 0) = true := by
    intro l
    rw [List.all_eq_true]
    intro c _
    simp [hpass c.tree]
  cases hfix : commits.all (fun c => fixTree c.tree = c.tree) with
  | true => simp [runFix, hall, hfix]
  | false =>
    have hfix2 : (commits.map (fun c =>
        { id := newId c.id, tree := fixTree c.tree, descr := c.descr : CommitRef })).all
          (fun c => fixTree c.tree = c.tree) = true := by
      rw [List.all_eq_true]
      intro c hc
      rw [List.mem_map] at hc
      obtain ⟨d, _, rfl⟩ := hc
      simp [hidem d.tree]
    simp [runFix, hall, hfix, hfix2]

/-- Witness for C3: running the fixer a second time over the stack produced
by the first fix-mode run changes nothing and reports "No commits to fix.". -/
theorem fix_idempotent_witness :
    (∀ t, (passExec t).exit_code = 0)
    ∧ (∀ t, normalizeTree (normalizeTree t) = normalizeTree t)
    ∧ (runFix passExec normalizeTree shiftId
        (runFix passExec normalizeTree shiftId [commitA, commitB]).newCommits).rewritten = []
    ∧ (runFix passExec normalizeTree shiftId
        (runFix passExec normalizeTree shiftId [commitA, commitB]).newCommits).message
        = "No commits to fix."
    ∧ (runFix passExec normalizeTree shiftId
        (runFix passExec normalizeTree shiftId [commitA, commitB]).newCommits).newCommits
        = (runFix passExec normalizeTree shiftId [commitA, commitB]).newCommits := by
  have hidem : ∀ t, normalizeTree (normalizeTree t) = normalizeTree t := by
    intro t
    simp only [normalizeTree]
    split
    · next h =>
      have h2 : ¬ t + 100 < 100 := by omega
      simp [h2]
    · next h => simp [h]
  have h := fix_idempotent passExec normalizeTree shiftId [commitA, commitB]
    (fun t => by simp [passExec]) hidem
  exact ⟨fun t => by simp [passExec], hidem, h.1, h.2.1, h.2.2.1⟩

end BranchlessTest

namespace BranchlessTest

theorem mem_removeTrees (trees : List Nat) (cache : Cache) (r : CacheRecord) :
    r ∈ removeTrees trees cache ↔ (r ∈ cache ∧ r.tree ∉ trees) := by
  induction cache with
  | nil => simp [removeTrees]
  | cons x rest ih =>
    by_cases hx : x.tree ∈ trees
    · rw [show removeTrees trees (x :: rest) = removeTrees trees rest by
        simp [removeTrees, hx]]
      rw [ih]
      constructor
      · exact fun h => ⟨List.mem_cons_of_mem x h.1, h.2⟩
      · rintro ⟨h1, h2⟩
        rcases List.mem_cons.mp h1 with rfl | h1
        · exact absurd hx h2
        · exact ⟨h1, h2⟩
    · rw [show removeTrees trees (x :: rest) = x :: removeTrees trees rest by
        simp [removeTrees, hx]]
      rw [List.mem_cons, ih]
      constructor
      · rintro (rfl | ⟨h1, h2⟩)
        · exact ⟨List.mem_cons_self r rest, hx⟩
        · exact ⟨List.mem_cons_of_mem x h1, h2⟩
      · rintro ⟨h1, h2⟩
        rcases List.mem_cons.mp h1 with rfl | h1
        · exact Or.inl rfl
        · exact Or.inr ⟨h1, h2⟩

theorem lookupEntry_removeTrees (trees : List Nat) (cache : Cache)
    (t : Nat) (cmd : String) (ht : t ∈ trees) :
    lookupEntry (removeTrees trees cache) t cmd = none := by
  induction cache with
  | nil => rfl
  | cons x rest ih =>
    by_cases hx : x.tree ∈ trees
    · simpa [removeTrees, hx] using ih
    · have hne : ¬ (x.tree = t ∧ x.command = cmd) := by
        rintro ⟨h1, -⟩
        exact hx (h1 ▸ ht)
      simpa [removeTrees, hx, lookupEntry, hne] using ih

/-- C6: `clean` over a commit set removes exactly the cache entries keyed
by those commits' current tree content identifiers, reports "Cleaning
results" for each commit that had an entry and "No cached test data" for
each commit that did not, reports the number of entries that existed
before removal, and afterwards any lookup a `show` or `run` would make for
those commits finds no cached data. -/
theorem clean_removes_tree_entries (cache : Cache) (commits : List CommitRef)
    (cmd : String) :
    (∀ r : CacheRecord, r ∈ (cleanCache cache commits).1
        ↔ (r ∈ cache ∧ r.tree ∉ commits.map (fun c => c.tree)))
    ∧ (cleanCache cache commits).2.2
        = (cache.filter (fun r => r.tree ∈ commits.map (fun c => c.tree))).length
    ∧ (cleanCache cache commits).2.1
        = (commits.map (fun c =>
            if treeHasEntry cache c.tree then "Cleaning results for " ++ c.descr
            else "No cached test data for " ++ c.descr))
          ++ ["Cleaned " ++ toString (cleanCache cache commits).2.2
                ++ " cached test results."]
    ∧ (∀ c ∈ commits, lookupEntry (cleanCache cache commits).1 c.tree cmd = none)
    ∧ (∀ c ∈ commits, showLine (cleanCache cache commits).1 cmd c
        = "No cached test data for " ++ c.descr) := by
  refine ⟨fun r => mem_removeTrees _ _ r, rfl, rfl, ?_, ?_⟩
  · intro c hc
    exact lookupEntry_removeTrees _ _ _ _ (List.mem_map_of_mem _ hc)
  · intro c hc
    have h := lookupEntry_removeTrees (commits.map (fun c => c.tree)) cache
      c.tree cmd (List.mem_map_of_mem _ hc)
    simp [showLine, cleanCache, h]

/-- Witness for C6: cleaning a two-commit set from a three-entry cache
removes both matching entries (and only those), after which `show` reports
no cached data for them. -/
theorem clean_removes_tree_entries_witness :
    commitA ∈ [commitA, commitB]
    ∧ lookupEntry (cleanCache sampleCache [commitA, commitB]).1 commitA.tree "echo hi" = none
    ∧ showLine (cleanCache sampleCache [commitA, commitB]).1 "echo hi" commitA
        = "No cached test data for " ++ commitA.descr
    ∧ (cleanCache sampleCache [commitA, commitB]).2.2 = 2 :=
  ⟨by decide,
   (clean_removes_tree_entries sampleCache [commitA, commitB] "echo hi").2.2.2.1
     commitA (by decide),
   (clean_removes_tree_entries sampleCache [commitA, commitB] "echo hi").2.2.2.2
     commitA (by decide),
   by decide⟩

end BranchlessTest

namespace BranchlessTest

theorem runCommits_nil (exec : Nat → CacheEntry) (cmd : String) (cache : Cache) :
    runCommits exec cmd cache [] = ([], cache, []) := rfl

theorem runCommits_cons_hit (exec : Nat → CacheEntry) (cmd : String)
    (cache : Cache) (c : CommitRef) (cs : List CommitRef) (e : CacheEntry)
    (h : lookupEntry cache c.tree cmd = some e) :
    runCommits exec cmd cache (c :: cs)
      = ((c, cachedOutcome e) :: (runCommits exec cmd cache cs).1,
         (runCommits exec cmd cache cs).2.1,
         (runCommits exec cmd cache cs).2.2) := by
  simp [runCommits, h]

theorem runCommits_cons_miss (exec : Nat → CacheEntry) (cmd : String)
    (cache : Cache) (c : CommitRef) (cs : List CommitRef)
    (h : lookupEntry cache c.tree cmd = none) :
    runCommits exec cmd cache (c :: cs)
      = ((c, freshOutcome (exec c.tree))
            :: (runCommits exec cmd (storeEntry cache c.tree cmd (exec c.tree)) cs).1,
         (runCommits exec cmd (storeEntry cache c.tree cmd (exec c.tree)) cs).2.1,
         c.tree :: (runCommits exec cmd (storeEntry cache c.tree cmd (exec c.tree)) cs).2.2) := by
  simp [runCommits, h]

theorem lookupEntry_removeKey (cache : Cache) (t : Nat) (cmd : String)
    (t' : Nat) (cmd' : String) (h : ¬(t' = t ∧ cmd' = cmd)) :
    lookupEntry (removeKey cache t cmd) t' cmd' = lookupEntry cache t' cmd' := by
  induction cache with
  | nil => rfl
  | cons x rest ih =>
    by_cases hx : x.tree = t ∧ x.command = cmd
    · have hxne : ¬ (x.tree = t' ∧ x.command = cmd') := by
        rintro ⟨h1, h2⟩
        exact h ⟨h1.symm.trans hx.1, h2.symm.trans hx.2⟩
      simp only [removeKey, if_pos hx, ih, lookupEntry, if_neg hxne]
    · simp only [removeKey, if_neg hx, lookupEntry, ih]

theorem lookupEntry_storeEntry_self (cache : Cache) (t : Nat) (cmd : String)
    (e : CacheEntry) :
    lookupEntry (storeEntry cache t cmd e) t cmd = some e := by
  simp [storeEntry, lookupEntry]

theorem lookupEntry_storeEntry_ne (cache : Cache) (t : Nat) (cmd : String)
    (e : CacheEntry) (t' : Nat) (cmd' : String) (h : ¬(t' = t ∧ cmd' = cmd)) :
    lookupEntry (storeEntry cache t cmd e) t' cmd' = lookupEntry cache t' cmd' := by
  have hhead : ¬ (t = t' ∧ cmd = cmd') := by
    rintro ⟨h1, h2⟩
    exact h ⟨h1.symm, h2.symm⟩
  show lookupEntry (⟨t, cmd, e⟩ :: removeKey cache t cmd) t' cmd' = _
  simp only [lookupEntry, if_neg hhead]
  exact lookupEntry_removeKey cache t cmd t' cmd' h

theorem lookupEntry_mem (cache : Cache) (t : Nat) (cmd : String) (e : CacheEntry)
    (h : lookupEntry cache t cmd = some e) :
    ∃ r ∈ cache, r.entry = e := by
  induction cache with
  | nil => cases h
  | cons x rest ih =>
    by_cases hx : x.tree = t ∧ x.command = cmd
    · rw [show lookupEntry (x :: rest) t cmd = some x.entry by
        simp only [lookupEntry, if_pos hx]] at h
      exact ⟨x, List.mem_cons_self x rest, (Option.some.injEq _ _).mp h⟩
    · rw [show lookupEntry (x :: rest) t cmd = lookupEntry rest t cmd by
        simp only [lookupEntry, if_neg hx]] at h
      obtain ⟨r, hr, hre⟩ := ih h
      exact ⟨r, List.mem_cons_of_mem x hr, hre⟩

theorem mem_removeKey_subset (cache : Cache) (t : Nat) (cmd : String)
    (r : CacheRecord) (h : r ∈ removeKey cache t cmd) : r ∈ cache := by
  induction cache with
  | nil => cases h
  | cons x rest ih =>
    by_cases hx : x.tree = t ∧ x.command = cmd
    · rw [show removeKey (x :: rest) t cmd = removeKey rest t cmd by
        simp only [removeKey, if_pos hx]] at h
      exact List.mem_cons_of_mem x (ih h)
    · rw [show removeKey (x :: rest) t cmd = x :: removeKey rest t cmd by
        simp only [removeKey, if_neg hx]] at h
      rcases List.mem_cons.mp h with rfl | h'
      · exact List.mem_cons_self r rest
      · exact List.mem_cons_of_mem x (ih h')

theorem lookupEntry_runCommits_mono (exec : Nat → CacheEntry) (cmd : String)
    (cs : List CommitRef) : ∀ (cache : Cache) (t : Nat) (e : CacheEntry),
    lookupEntry cache t cmd = some e →
    lookupEntry (runCommits exec cmd cache cs).2.1 t cmd = some e := by
  induction cs with
  | nil =>
    intro cache t e h
    simpa [runCommits] using h
  | cons c0 cs ih =>
    intro cache t e h
    cases hl : lookupEntry cache c0.tree cmd with
    | some e' =>
      rw [runCommits_cons_hit exec cmd cache c0 cs e' hl]
      exact ih cache t e h
    | none =>
      rw [runCommits_cons_miss exec cmd cache c0 cs hl]
      apply ih
      have hne : ¬ (t = c0.tree ∧ cmd = cmd) := by
        rintro ⟨rfl, -⟩
        rw [h] at hl
        cases hl
      rw [lookupEntry_storeEntry_ne cache c0.tree cmd (exec c0.tree) t cmd hne]
      exact h

theorem lookupEntry_runCommits_processed (exec : Nat → CacheEntry) (cmd : String)
    (cs : List CommitRef) : ∀ (cache : Cache) (c : CommitRef), c ∈ cs →
    ∃ e, lookupEntry (runCommits exec cmd cache cs).2.1 c.tree cmd = some e := by
  induction cs with
  | nil =>
    intro cache c h
    cases h
  | cons c0 cs ih =>
    intro cache c hmem
    cases hl : lookupEntry cache c0.tree cmd with
    | some e' =>
      rw [runCommits_cons_hit exec cmd cache c0 cs e' hl]
      rcases List.mem_cons.mp hmem with rfl | hmem'
      · exact ⟨e', lookupEntry_runCommits_mono exec cmd cs cache c.tree e' hl⟩
      · exact ih cache c hmem'
    | none =>
      rw [runCommits_cons_miss exec cmd cache c0 cs hl]
      rcases List.mem_cons.mp hmem with rfl | hmem'
      · exact ⟨exec c.tree,
          lookupEntry_runCommits_mono exec cmd cs _ _ _
            (lookupEntry_storeEntry_self cache c.tree cmd (exec c.tree))⟩
      · exact ih _ c hmem'

theorem tree_not_spawned_of_cached (exec : Nat → CacheEntry) (cmd : String)
    (cs : List CommitRef) : ∀ (cache : Cache) (t : Nat) (e : CacheEntry),
    lookupEntry cache t cmd = some e →
    t ∉ (runCommits exec cmd cache cs).2.2 := by
  induction cs with
  | nil =>
    intro cache t e _
    simp [runCommits]
  | cons c0 cs ih =>
    intro cache t e h
    cases hl : lookupEntry cache c0.tree cmd with
    | some e' =>
      rw [runCommits_cons_hit exec cmd cache c0 cs e' hl]
      exact ih cache t e h
    | none =>
      rw [runCommits_cons_miss exec cmd cache c0 cs hl]
      intro hmem
      rcases List.mem_cons.mp hmem with rfl | hmem'
      · rw [h] at hl
        cases hl
      · have hne : ¬ (t = c0.tree ∧ cmd = cmd) := by
          rintro ⟨rfl, -⟩
          rw [h] at hl
          cases hl
        refine ih (storeEntry cache c0.tree cmd (exec c0.tree)) t e ?_ hmem'
        rw [lookupEntry_storeEntry_ne cache c0.tree cmd (exec c0.tree) t cmd hne]
        exact h

theorem spawn_count_le_one (exec : Nat → CacheEntry) (cmd : String)
    (cs : List CommitRef) : ∀ (cache : Cache) (t : Nat),
    ((runCommits exec cmd cache cs).2.2).count t ≤ 1 := by
  induction cs with
  | nil =>
    intro cache t
    simp [runCommits]
  | cons c0 cs ih =>
    intro cache t
    cases hl : lookupEntry cache c0.tree cmd with
    | some e' =>
      rw [runCommits_cons_hit exec cmd cache c0 cs e' hl]
      exact ih cache t
    | none =>
      rw [runCommits_cons_miss exec cmd cache c0 cs hl]
      by_cases ht : t = c0.tree
      · rw [ht]
        have hnotin : c0.tree ∉ (runCommits exec cmd
            (storeEntry cache c0.tree cmd (exec c0.tree)) cs).2.2 :=
          tree_not_spawned_of_cached exec cmd cs _ c0.tree (exec c0.tree)
            (lookupEntry_storeEntry_self cache c0.tree cmd (exec c0.tree))
        have hzero := List.count_eq_zero.mpr hnotin
        rw [List.count_cons_self]
        omega
      · rw [List.count_cons_of_ne ht]
        exact ih _ t

theorem runCommits_map_fst (exec : Nat → CacheEntry) (cmd : String)
    (cs : List CommitRef) : ∀ (cache : Cache),
    ((runCommits exec cmd cache cs).1).map Prod.fst = cs := by
  induction cs with
  | nil =>
    intro cache
    simp [runCommits]
  | cons c0 cs ih =>
    intro cache
    cases hl : lookupEntry cache c0.tree cmd with
    | some e' =>
      rw [runCommits_cons_hit exec cmd cache c0 cs e' hl]
      simp [ih]
    | none =>
      rw [runCommits_cons_miss exec cmd cache c0 cs hl]
      simp [ih]

theorem runCommits_length (exec : Nat → CacheEntry) (cmd : String)
    (cs : List CommitRef) (cache : Cache) :
    ((runCommits exec cmd cache cs).1).length = cs.length := by
  have h := congrArg List.length (runCommits_map_fst exec cmd cs cache)
  simpa using h

theorem runCommits_append (exec : Nat → CacheEntry) (cmd : String)
    (l₁ : List CommitRef) : ∀ (cache : Cache) (l₂ : List CommitRef),
    runCommits exec cmd cache (l₁ ++ l₂)
      = ((runCommits exec cmd cache l₁).1
            ++ (runCommits exec cmd (runCommits exec cmd cache l₁).2.1 l₂).1,
         (runCommits exec cmd (runCommits exec cmd cache l₁).2.1 l₂).2.1,
         (runCommits exec cmd cache l₁).2.2
            ++ (runCommits exec cmd (runCommits exec cmd cache l₁).2.1 l₂).2.2) := by
  induction l₁ with
  | nil =>
    intro cache l₂
    simp [runCommits]
  | cons c0 l₁ ih =>
    intro cache l₂
    cases hl : lookupEntry cache c0.tree cmd with
    | some e' =>
      rw [List.cons_append, runCommits_cons_hit exec cmd cache c0 (l₁ ++ l₂) e' hl,
        runCommits_cons_hit exec cmd cache c0 l₁ e' hl, ih]
      simp
    | none =>
      rw [List.cons_append, runCommits_cons_miss exec cmd cache c0 (l₁ ++ l₂) hl,
        runCommits_cons_miss exec cmd cache c0 l₁ hl, ih]
      simp

end BranchlessTest

namespace BranchlessTest

theorem cachedOutcome_isCached (e : CacheEntry) :
    (cachedOutcome e).isCached = true := by
  unfold cachedOutcome
  split <;> rfl

theorem describe_cachedOutcome (e : CacheEntry) :
    describeOutcome (cachedOutcome e) = "✓ Passed (cached)"
    ∨ describeOutcome (cachedOutcome e) = "X Failed (cached)" := by
  unfold cachedOutcome
  split
  · exact Or.inl rfl
  · exact Or.inr rfl

/-- C1: for every pair of commits with identical tree content identifiers
tested with the same command string (the second appearing after the first
in the stack), the second test of that (tree content, command) pair is
served from the cache: the stored entry is looked up and its result
reused, the reported outcome carries the cached annotation, and the
command is spawned at most once for that tree across the whole run. -/
theorem second_test_served_from_cache (exec : Nat → CacheEntry) (cmd : String)
    (l₁ l₂ : List CommitRef) (ci cj : CommitRef)
    (hmem : ci ∈ l₁) (htree : ci.tree = cj.tree) :
    (∃ e : CacheEntry,
        lookupEntry (runCommits exec cmd [] (l₁ ++ cj :: l₂)).2.1 cj.tree cmd = some e
        ∧ (runCommits exec cmd [] (l₁ ++ cj :: l₂)).1[l₁.length]?
            = some (cj, cachedOutcome e)
        ∧ (cachedOutcome e).isCached = true
        ∧ (describeOutcome (cachedOutcome e) = "✓ Passed (cached)"
            ∨ describeOutcome (cachedOutcome e) = "X Failed (cached)"))
    ∧ ((runCommits exec cmd [] (l₁ ++ cj :: l₂)).2.2).count cj.tree ≤ 1 := by
  obtain ⟨e₁, he₁⟩ :=
    lookupEntry_runCommits_processed exec cmd l₁ [] ci hmem
  rw [htree] at he₁
  rw [runCommits_append exec cmd l₁ [] (cj :: l₂),
    runCommits_cons_hit exec cmd (runCommits exec cmd [] l₁).2.1 cj l₂ e₁ he₁]
  refine ⟨⟨e₁, ?_, ?_, cachedOutcome_isCached e₁, describe_cachedOutcome e₁⟩, ?_⟩
  · exact lookupEntry_runCommits_mono exec cmd l₂ _ cj.tree e₁ he₁
  · rw [List.getElem?_append_right (by
      rw [runCommits_length exec cmd l₁ []])]
    rw [runCommits_length exec cmd l₁ []]
    simp
  · rw [List.count_append]
    have h₁ := spawn_count_le_one exec cmd l₁ [] cj.tree
    have h₂ : cj.tree ∉ (runCommits exec cmd (runCommits exec cmd [] l₁).2.1 l₂).2.2 :=
      tree_not_spawned_of_cached exec cmd l₂ _ cj.tree e₁ he₁
    have hc : (((cj, cachedOutcome e₁)
            :: (runCommits exec cmd (runCommits exec cmd [] l₁).2.1 l₂).1,
          (runCommits exec cmd (runCommits exec cmd [] l₁).2.1 l₂).2.1,
          (runCommits exec cmd (runCommits exec cmd [] l₁).2.1 l₂).2.2).2.2).count
            cj.tree = 0 :=
      List.count_eq_zero.mpr h₂
    omega

/-- Witness for C1: a stack ending in a revert whose tree content matches
the first commit's; the revert's result is served from the cache and its
tree is executed only once. -/
theorem second_test_served_from_cache_witness :
    commitA ∈ [commitA, commitB] ∧ commitA.tree = commitRevert.tree
    ∧ ((∃ e : CacheEntry,
          lookupEntry (runCommits passExec "exit 0"
              [] ([commitA, commitB] ++ commitRevert :: [])).2.1
              commitRevert.tree "exit 0" = some e
          ∧ (runCommits passExec "exit 0"
              [] ([commitA, commitB] ++ commitRevert :: [])).1[([commitA, commitB] : List CommitRef).length]?
              = some (commitRevert, cachedOutcome e)
          ∧ (cachedOutcome e).isCached = true
          ∧ (describeOutcome (cachedOutcome e) = "✓ Passed (cached)"
              ∨ describeOutcome (cachedOutcome e) = "X Failed (cached)"))
        ∧ ((runCommits passExec "exit 0"
            [] ([commitA, commitB] ++ commitRevert :: [])).2.2).count commitRevert.tree ≤ 1) :=
  ⟨by decide, by decide,
   second_test_served_from_cache passExec "exit 0" [commitA, commitB] []
     commitA commitRevert (by decide) (by decide)⟩

end BranchlessTest

namespace BranchlessTest

theorem isFailed_eq_false_of_isPassed (o : TestOutcome)
    (h : o.isPassed = true) : o.isFailed = false := by
  cases o <;> simp_all [TestOutcome.isPassed, TestOutcome.isFailed]

theorem isSkipped_eq_false_of_isPassed (o : TestOutcome)
    (h : o.isPassed = true) : o.isSkipped = false := by
  cases o <;> simp_all [TestOutcome.isPassed, TestOutcome.isSkipped]

theorem isPassed_eq_false_of_isFailed (o : TestOutcome)
    (h : o.isFailed = true) : o.isPassed = false := by
  cases o <;> simp_all [TestOutcome.isPassed, TestOutcome.isFailed]

theorem isSkipped_eq_false_of_isFailed (o : TestOutcome)
    (h : o.isFailed = true) : o.isSkipped = false := by
  cases o <;> simp_all [TestOutcome.isFailed, TestOutcome.isSkipped]

theorem summarize_all_passed (outs : List TestOutcome)
    (h : ∀ o ∈ outs, o.isPassed = true) :
    summarize outs = ⟨outs.length, 0, 0⟩ := by
  have hp : outs.countP (fun o => o.isPassed) = outs.length :=
    List.countP_eq_length.mpr (fun a ha => by simp [h a ha])
  have hf : outs.countP (fun o => o.isFailed) = 0 := by
    rw [List.countP_eq_zero]
    intro a ha
    simp [isFailed_eq_false_of_isPassed a (h a ha)]
  have hs : outs.countP (fun o => o.isSkipped) = 0 := by
    rw [List.countP_eq_zero]
    intro a ha
    simp [isSkipped_eq_false_of_isPassed a (h a ha)]
  simp [summarize, hp, hf, hs]

theorem summarize_all_failed (outs : List TestOutcome)
    (h : ∀ o ∈ outs, o.isFailed = true) :
    summarize outs = ⟨0, outs.length, 0⟩ := by
  have hf : outs.countP (fun o => o.isFailed) = outs.length :=
    List.countP_eq_length.mpr (fun a ha => by simp [h a ha])
  have hp : outs.countP (fun o => o.isPassed) = 0 := by
    rw [List.countP_eq_zero]
    intro a ha
    simp [isPassed_eq_false_of_isFailed a (h a ha)]
  have hs : outs.countP (fun o => o.isSkipped) = 0 := by
    rw [List.countP_eq_zero]
    intro a ha
    simp [isSkipped_eq_false_of_isFailed a (h a ha)]
  simp [summarize, hp, hf, hs]

theorem outcomes_passed_of_all_pass (exec : Nat → CacheEntry) (cmd : String)
    (cs : List CommitRef) : ∀ (cache : Cache),
    (∀ r ∈ cache, r.entry.exit_code = 0) →
    (∀ c ∈ cs, (exec c.tree).exit_code = 0) →
    ∀ o ∈ (runCommits exec cmd cache cs).1, (o.2).isPassed = true := by
  induction cs with
  | nil =>
    intro cache _ _ o ho
    rw [runCommits_nil] at ho
    cases ho
  | cons c0 cs ih =>
    intro cache hcache hexec o ho
    cases hl : lookupEntry cache c0.tree cmd with
    | some e' =>
      rw [runCommits_cons_hit exec cmd cache c0 cs e' hl] at ho
      rcases List.mem_cons.mp ho with rfl | ho'
      · obtain ⟨r, hr, hre⟩ := lookupEntry_mem cache c0.tree cmd e' hl
        have h0 : e'.exit_code = 0 := hre ▸ hcache r hr
        simp [cachedOutcome, h0, TestOutcome.isPassed]
      · exact ih cache hcache (fun c h => hexec c (List.mem_cons_of_mem c0 h)) o ho'
    | none =>
      rw [runCommits_cons_miss exec cmd cache c0 cs hl] at ho
      rcases List.mem_cons.mp ho with rfl | ho'
      · have h0 : (exec c0.tree).exit_code = 0 := hexec c0 (List.mem_cons_self c0 cs)
        simp [freshOutcome, h0, TestOutcome.isPassed]
      · refine ih (storeEntry cache c0.tree cmd (exec c0.tree)) ?_
          (fun c h => hexec c (List.mem_cons_of_mem c0 h)) o ho'
        intro r hr
        simp only [storeEntry] at hr
        rcases List.mem_cons.mp hr with rfl | hr'
        · exact hexec c0 (List.mem_cons_self c0 cs)
        · exact hcache r (mem_removeKey_subset cache c0.tree cmd r hr')

theorem outcomes_failed_of_all_fail (exec : Nat → CacheEntry) (cmd : String)
    (cs : List CommitRef) : ∀ (cache : Cache),
    (∀ r ∈ cache, r.entry.exit_code ≠ 0) →
    (∀ c ∈ cs, (exec c.tree).exit_code ≠ 0) →
    ∀ o ∈ (runCommits exec cmd cache cs).1, (o.2).isFailed = true := by
  induction cs with
  | nil =>
    intro cache _ _ o ho
    rw [runCommits_nil] at ho
    cases ho
  | cons c0 cs ih =>
    intro cache hcache hexec o ho
    cases hl : lookupEntry cache c0.tree cmd with
    | some e' =>
      rw [runCommits_cons_hit exec cmd cache c0 cs e' hl] at ho
      rcases List.mem_cons.mp ho with rfl | ho'
      · obtain ⟨r, hr, hre⟩ := lookupEntry_mem cache c0.tree cmd e' hl
        have h0 : e'.exit_code ≠ 0 := hre ▸ hcache r hr
        simp [cachedOutcome, h0, TestOutcome.isFailed]
      · exact ih cache hcache (fun c h => hexec c (List.mem_cons_of_mem c0 h)) o ho'
    | none =>
      rw [runCommits_cons_miss exec cmd cache c0 cs hl] at ho
      rcases List.mem_cons.mp ho with rfl | ho'
      · have h0 : (exec c0.tree).exit_code ≠ 0 := hexec c0 (List.mem_cons_self c0 cs)
        simp [freshOutcome, h0, TestOutcome.isFailed]
      · refine ih (storeEntry cache c0.tree cmd (exec c0.tree)) ?_
          (fun c h => hexec c (List.mem_cons_of_mem c0 h)) o ho'
        intro r hr
        simp only [storeEntry] at hr
        rcases List.mem_cons.mp hr with rfl | hr'
        · exact hexec c0 (List.mem_cons_self c0 cs)
        · exact hcache r (mem_removeKey_subset cache c0.tree cmd r hr')

theorem runCommits_all_fresh (exec : Nat → CacheEntry) (cmd : String)
    (cs : List CommitRef) : ∀ (cache : Cache),
    (∀ c ∈ cs, lookupEntry cache c.tree cmd = none) →
    (cs.map (fun c => c.tree)).Nodup →
    (runCommits exec cmd cache cs).1
      = cs.map (fun c => (c, freshOutcome (exec c.tree))) := by
  induction cs with
  | nil =>
    intro cache _ _
    simp [runCommits]
  | cons c0 cs ih =>
    intro cache hnone hnodup
    have hl : lookupEntry cache c0.tree cmd = none :=
      hnone c0 (List.mem_cons_self c0 cs)
    rw [runCommits_cons_miss exec cmd cache c0 cs hl, List.map_cons]
    rw [List.map_cons, List.nodup_cons] at hnodup
    show (c0, freshOutcome (exec c0.tree))
        :: (runCommits exec cmd (storeEntry cache c0.tree cmd (exec c0.tree)) cs).1 = _
    congr 1
    apply ih _ _ hnodup.2
    intro c hc
    have hne : ¬ (c.tree = c0.tree ∧ cmd = cmd) := by
      rintro ⟨h1, -⟩
      exact hnodup.1 (h1 ▸ List.mem_map_of_mem (fun c => c.tree) hc)
    rw [lookupEntry_storeEntry_ne cache c0.tree cmd (exec c0.tree) c.tree cmd hne]
    exact hnone c (List.mem_cons_of_mem c0 hc)

end BranchlessTest

namespace BranchlessTest

/-- C4 (amended): for every commit list, the Scheduler attempts every
commit regardless of earlier failures (no short-circuit on first failure),
and the final summary has the format `Tested <k> commit(s) with
<command>:` followed on the next line by `<p> passed, <f> failed, <s>
skipped`; k commits all exiting 0 yield "k passed, 0 failed, 0 skipped",
and k commits (with distinct tree contents) all exiting 1 yield "0 passed,
k failed, 0 skipped" with each commit individually marked Failed with exit
code 1. -/
theorem scheduler_attempts_all (exec : Nat → CacheEntry) (cmd : String)
    (commits : List CommitRef) :
    ((runCommits exec cmd [] commits).1.map Prod.fst = commits)
    ∧ summaryLine commits.length cmd
        (summarize ((runCommits exec cmd [] commits).1.map Prod.snd))
        = "Tested " ++ toString commits.length ++ " commit"
            ++ (if commits.length = 1 then "" else "s") ++ " with " ++ cmd ++ ":\n"
            ++ toString (summarize ((runCommits exec cmd [] commits).1.map Prod.snd)).passed
            ++ " passed, "
            ++ toString (summarize ((runCommits exec cmd [] commits).1.map Prod.snd)).failed
            ++ " failed, "
            ++ toString (summarize ((runCommits exec cmd [] commits).1.map Prod.snd)).skipped
            ++ " skipped"
    ∧ ((∀ c ∈ commits, (exec c.tree).exit_code = 0) →
        summarize ((runCommits exec cmd [] commits).1.map Prod.snd)
          = ⟨commits.length, 0, 0⟩)
    ∧ ((∀ c ∈ commits, (exec c.tree).exit_code = 1) →
        summarize ((runCommits exec cmd [] commits).1.map Prod.snd)
          = ⟨0, commits.length, 0⟩
        ∧ ((commits.map (fun c => c.tree)).Nodup →
            (runCommits exec cmd [] commits).1
              = commits.map (fun c => (c, TestOutcome.Failed 1)))) := by
  refine ⟨runCommits_map_fst exec cmd commits [], rfl, ?_, ?_⟩
  · intro hpass
    have hall := outcomes_passed_of_all_pass exec cmd commits []
      (by intro r hr; cases hr) hpass
    have h' : ∀ o ∈ (runCommits exec cmd [] commits).1.map Prod.snd,
        o.isPassed = true := by
      intro o ho
      rw [List.mem_map] at ho
      obtain ⟨p, hp, rfl⟩ := ho
      exact hall p hp
    rw [summarize_all_passed _ h']
    simp [runCommits_length]
  · intro hfail
    constructor
    · have hall := outcomes_failed_of_all_fail exec cmd commits []
        (by intro r hr; cases hr)
        (fun c hc => by rw [hfail c hc]; exact Nat.one_ne_zero)
      have h' : ∀ o ∈ (runCommits exec cmd [] commits).1.map Prod.snd,
          o.isFailed = true := by
        intro o ho
        rw [List.mem_map] at ho
        obtain ⟨p, hp, rfl⟩ := ho
        exact hall p hp
      rw [summarize_all_failed _ h']
      simp [runCommits_length]
    · intro hnodup
      rw [runCommits_all_fresh exec cmd commits [] (fun c _ => rfl) hnodup]
      apply List.map_congr_left
      intro c hc
      simp [freshOutcome, hfail c hc]

/-- C4 counterexample: the rendered summary is not the single-line string
the claim describes — the counts follow a newline after the colon, so the
summary spans two lines (matching the test_test snapshot transcript). -/
theorem summary_not_single_line :
    summaryLine 2 "exit 0" ⟨2, 0, 0⟩
        = "Tested 2 commits with exit 0:\n2 passed, 0 failed, 0 skipped"
    ∧ summaryLine 2 "exit 0" ⟨2, 0, 0⟩
        ≠ "Tested 2 commits with exit 0: 2 passed, 0 failed, 0 skipped" := by
  constructor
  · decide
  · decide

/-- Witness for C4: two commits that both exit 1 are both attempted, the
summary counts 0 passed and 2 failed, and each commit is individually
marked Failed with exit code 1. -/
theorem scheduler_attempts_all_witness :
    (∀ c ∈ [commitA, commitB], (failExec c.tree).exit_code = 1)
    ∧ (([commitA, commitB] : List CommitRef).map (fun c => c.tree)).Nodup
    ∧ summarize ((runCommits failExec "exit 1" [] [commitA, commitB]).1.map Prod.snd)
        = ⟨0, 2, 0⟩
    ∧ (runCommits failExec "exit 1" [] [commitA, commitB]).1
        = [(commitA, TestOutcome.Failed 1), (commitB, TestOutcome.Failed 1)] := by
  have h := (scheduler_attempts_all failExec "exit 1" [commitA, commitB]).2.2.2
    (by decide)
  refine ⟨by decide, by decide, h.1, ?_⟩
  rw [h.2 (by decide)]
  decide

end BranchlessTest
